import Mathlib

/-!
# Verification of the MikuMikuWorld4CC chart editor core

Shallow embedding of the editing core of the MikuMikuWorld4CC rhythm game
chart editor, together with theorems settling the specification claims.

Sources embedded:
- src/MikuMikuWorld/ScoreEditor.cpp : snapTick, roundTickDown, setDivision,
  the hold release normalization in noteControl, loadScore, pushHistory,
  undo, redo, save, updateNoteSE.
- src/MikuMikuWorld/Audio/AudioManager.cpp : seekBGM end flag bookkeeping.

C++ int values are modelled as Int; C++ / and % truncate toward zero, so they
are modelled by Int.tdiv and Int.tmod. Float valued clocks and positions are
modelled as exact rationals, since the claims are about branch and window
logic, not rounding.
-/

set_option maxHeartbeats 1000000

namespace MikuMikuWorld

/-! ## Tick snapping: ScoreEditor::snapTick, roundTickDown, setDivision -/

/-- Modelled from the spec: the constant TICKS_PER_BEAT lives in a header that
is not part of the provided sources; the spec fixes 480 ticks per beat. -/
def TICKS_PER_BEAT : Int := 480

/-- The snap interval `TICKS_PER_BEAT / (div / 4)` appearing in snapTick and
roundTickDown, with C++ truncating division. -/
def snapInterval (div : Int) : Int := TICKS_PER_BEAT.tdiv (div.tdiv 4)

/-- ScoreEditor::snapTick (ScoreEditor.cpp lines 216-227). -/
def snapTick (tick div : Int) : Int :=
  let interval := TICKS_PER_BEAT.tdiv (div.tdiv 4)
  let half := interval.tdiv 2
  let remaining := tick.tmod interval
  let tick1 := tick - remaining
  let tick2 := if remaining ≥ half then tick1 + half * 2 else tick1
  max tick2 0

/-- ScoreEditor::roundTickDown (ScoreEditor.cpp lines 229-232). -/
def roundTickDown (tick div : Int) : Int :=
  max (tick - tick.tmod (TICKS_PER_BEAT.tdiv (div.tdiv 4))) 0

/-- ScoreEditor::setDivision (ScoreEditor.cpp lines 313-317): the new value is
accepted only when it lies in [4, 1920]. -/
def setDivision (current div : Int) : Int :=
  if 4 ≤ div ∧ div ≤ 1920 then div else current

/-- Written from the words of the spec, for comparison with snapTick: the
nearest multiple of the interval, a tick exactly halfway rounding up, the
result clamped to be nonnegative. -/
def specSnapNearest (tick interval : Int) : Int :=
  let lower := interval * (tick / interval)
  max (if interval ≤ 2 * (tick - lower) then lower + interval else lower) 0

/-- Written from the words of the spec, for comparison with roundTickDown: the
greatest multiple of the interval that is at most tick, clamped to be
nonnegative. -/
def specRoundDown (tick interval : Int) : Int :=
  max (interval * (tick / interval)) 0

/-! ## Hold release normalization: ScoreEditor::noteControl lines 599-641 -/

/-- The fields of a note that the normalization reads and writes.  The id and
width fields ride along untouched, as in the source. -/
structure HNote where
  id : Int
  tick : Int
  lane : Int
  width : Int
deriving DecidableEq

/-- The pair of std::swap calls on tick and lane used by noteControl: each
note keeps its identity and width but the two exchange tick and lane. -/
def swapTickLane (a b : HNote) : HNote × HNote :=
  ({ a with tick := b.tick, lane := b.lane }, { b with tick := a.tick, lane := a.lane })

/-- A hold: start note, end note, and the list of step notes, as resolved
through score.notes by noteControl. -/
structure Hold where
  start : HNote
  fin : HNote
  steps : List HNote
deriving DecidableEq

/-- Comparison of step notes by tick. -/
def stepLE (a b : HNote) : Prop := a.tick ≤ b.tick

instance : DecidableRel stepLE := fun a b => inferInstanceAs (Decidable (a.tick ≤ b.tick))

instance : IsTotal HNote stepLE := ⟨fun a b => Int.le_total a.tick b.tick⟩

instance : IsTrans HNote stepLE := ⟨fun _ _ _ h1 h2 => le_trans h1 h2⟩

/-- Modelled from the spec: sortHoldSteps is defined outside the provided
sources; the spec says the steps of the hold are re-sorted by tick. -/
def sortHoldSteps (steps : List HNote) : List HNote :=
  List.insertionSort stepLE steps

/-- The last boundary repair of noteControl: walk to the last step and, when
the end tick is smaller than its tick, exchange tick and lane between the end
note and that step. -/
def swapWithLast (e : HNote) : List HNote → HNote × List HNote
  | [] => (e, [])
  | [x] =>
      if e.tick < x.tick then ((swapTickLane e x).1, [(swapTickLane e x).2])
      else (e, [x])
  | x :: y :: xs =>
      let p := swapWithLast e (y :: xs)
      (p.1, x :: p.2)

/-- The body of the repair run on one hold after the steps have been sorted:
when the smallest step tick is below the start tick the start note and that
step exchange tick and lane, and symmetrically for the end note and the last
step (noteControl lines 618-634). -/
def normalizeHoldSorted (s e : HNote) : List HNote → Hold
  | [] => { start := s, fin := e, steps := [] }
  | first :: rest =>
      let p2 := if first.tick < s.tick then swapTickLane s first else (s, first)
      let p3 := swapWithLast e (p2.2 :: rest)
      { start := p2.1, fin := p3.1, steps := p3.2 }

/-- The whole repair run on one hold when a hold endpoint drag ends
(noteControl lines 607-634): swap start and end when out of order, sort the
steps by tick, then apply the two boundary repairs. -/
def normalizeHold (h : Hold) : Hold :=
  let p1 := if h.fin.tick < h.start.tick then swapTickLane h.start h.fin else (h.start, h.fin)
  normalizeHoldSorted p1.1 p1.2 (sortHoldSteps h.steps)

/-- The tick sequence of a hold: start, steps in order, end. -/
def holdTicks (h : Hold) : List Int := h.start.tick :: (h.steps.map HNote.tick ++ [h.fin.tick])

/-- The hold invariant of the spec: start.tick ≤ steps[0].tick ≤ ... ≤ end.tick. -/
def holdInvariant (h : Hold) : Prop := List.Chain' (· ≤ ·) (holdTicks h)

/-- A decision procedure for tick chains by structural recursion. -/
instance decChainLEInt : (l : List Int) → Decidable (List.Chain' (· ≤ ·) l)
  | [] => isTrue List.chain'_nil
  | [_] => isTrue (List.chain'_singleton _)
  | a :: b :: rest =>
      match inferInstanceAs (Decidable (a ≤ b)), decChainLEInt (b :: rest) with
      | isTrue h1, isTrue h2 => isTrue (List.chain'_cons.mpr ⟨h1, h2⟩)
      | isFalse h1, _ => isFalse fun hc => h1 (List.chain'_cons.mp hc).1
      | _, isFalse h2 => isFalse fun hc => h2 (List.chain'_cons.mp hc).2

instance (h : Hold) : Decidable (holdInvariant h) := decChainLEInt (holdTicks h)

/-- A malformed hold: start at tick 10, end at tick 20, steps at ticks 0 and 5.
The first boundary repair moves tick 10 onto the first step, in front of the
step at tick 5, so the repaired hold is out of order. -/
def cexHold : Hold :=
  { start := ⟨1, 10, 0, 3⟩, fin := ⟨2, 20, 0, 3⟩
    steps := [⟨3, 0, 1, 3⟩, ⟨4, 5, 2, 3⟩] }

/-- A malformed hold whose single application of the repair yields an ordered
hold, used to witness idempotence. -/
def okHold : Hold :=
  { start := ⟨1, 10, 0, 3⟩, fin := ⟨2, 0, 5, 3⟩, steps := [⟨3, 5, 2, 3⟩] }

/-! ## Playback sound effect scheduling: ScoreEditor::updateNoteSE lines 383-450

The per frame scheduler.  The tick to seconds conversion accumulateDuration
is evaluated once per note; the embedding carries the resulting note time in
the note record.  The dedup table tickSEMap is keyed by the string
tick + "-" + se in the source, modelled as the pair (tick, se).  The hold
sustain playback calls (lines 416-420 and 440-447) go straight to the audio
engine without touching tickSEMap and are outside the claims, so they are not
recorded here. -/

structure SENote where
  tick : Int
  noteTime : ℚ
  se : String
deriving DecidableEq

/-- One simulation frame: the nominal editor clock and the song position
computed at the top of updateNoteSE for this frame. -/
structure SEFrame where
  time : ℚ
  songPos : ℚ
deriving DecidableEq

/-- Scheduler state carried across frames: the previous song position, the
dedup table, and the log of tap effect firings in this playback run. -/
structure SEState where
  songPos : ℚ
  tickSEMap : List (Int × String)
  fired : List (Int × String)
deriving DecidableEq

/-- The body of the per note loop of updateNoteSE for one note, acting on the
pair (tickSEMap, fired log).  Source line 407 reads `if (se.size());` with a
trailing semicolon, so in the window branch the nonempty guard is inert and
the table lookup runs for every note; the playback start branch has the
working guard. -/
def updateNoteSENote (lookAhead playStartTime time songPosLastFrame songPos : ℚ)
    (acc : List (Int × String) × List (Int × String)) (note : SENote) :
    List (Int × String) × List (Int × String) :=
  let offsetNoteTime := note.noteTime - lookAhead
  let key := (note.tick, note.se)
  if songPosLastFrame ≤ offsetNoteTime ∧ offsetNoteTime < songPos then
    if key ∈ acc.1 then acc else (acc.1 ++ [key], acc.2 ++ [key])
  else if time = playStartTime then
    if note.noteTime ≥ time ∧ offsetNoteTime < time then
      if note.se ≠ "" then
        if key ∈ acc.1 then acc else (acc.1 ++ [key], acc.2 ++ [key])
      else acc
    else acc
  else acc

/-- One playing frame of updateNoteSE: songPosLastFrame takes the previous
frame value, songPos the fresh one, tickSEMap is cleared (line 395), and the
note loop runs. -/
def updateNoteSEFrame (lookAhead playStartTime : ℚ) (notes : List SENote)
    (st : SEState) (f : SEFrame) : SEState :=
  let res := notes.foldl
    (updateNoteSENote lookAhead playStartTime f.time st.songPos f.songPos) ([], st.fired)
  { songPos := f.songPos, tickSEMap := res.1, fired := res.2 }

/-- A playback run: updateNoteSE executed over a sequence of playing frames. -/
def runNoteSE (lookAhead playStartTime : ℚ) (notes : List SENote)
    (st : SEState) (frames : List SEFrame) : SEState :=
  frames.foldl (updateNoteSEFrame lookAhead playStartTime notes) st

/-- How often the frame position sequence crosses the instant t upward: the
number of consecutive position pairs (p, q) with p ≤ t < q, the window used
by updateNoteSE. -/
def crossCount (t : ℚ) : ℚ → List SEFrame → Nat
  | _, [] => 0
  | prev, f :: fs => (if prev ≤ t ∧ t < f.songPos then 1 else 0) + crossCount t f.songPos fs

/-- A note whose fire instant lies before the playback start position:
lookahead 2, note time 4, fire instant 2, playback starting at position 3. -/
def cexNote : SENote := { tick := 0, noteTime := 4, se := "tap" }

/-- Two frames: on the first the audio clock regresses to 1, on the second it
advances to 3, crossing the fire instant 2 exactly once. -/
def cexFrames : List SEFrame := [{ time := 3, songPos := 1 }, { time := 4, songPos := 3 }]

/-- Scheduler state at the beginning of the run: the stale song position
equals the playback start position 3. -/
def cexInitSE : SEState := { songPos := 3, tickSEMap := [], fired := [] }

/-- A note for the dedup table claim: fire instant 2 with lookahead 1. -/
def c3Note : SENote := { tick := 7, noteTime := 3, se := "perfect" }

def c3Frame1 : SEFrame := { time := 0, songPos := 3 }

def c3Frame2 : SEFrame := { time := 1, songPos := 3 }

def c3Init : SEState := { songPos := 0, tickSEMap := [], fired := [] }

/-! ## Editor session state: loadScore, pushHistory, undo, redo, save

The chart snapshot type is abstract: the claims are about the orchestration
around it (allocator, history stacks, selection, modified flag), which never
inspects the snapshot. -/

/-- Modelled from the spec: a history entry of HistoryManager, a description
with the two whole chart snapshots around the change. -/
structure HistoryEntry (S : Type) where
  description : String
  prev : S
  curr : S
deriving DecidableEq

/-- Modelled from the spec: the linear undo and redo stacks of
HistoryManager. -/
structure HistoryState (S : Type) where
  undoStack : List (HistoryEntry S)
  redoStack : List (HistoryEntry S)
deriving DecidableEq

/-- Modelled from the spec: HistoryManager::hasUndo. -/
def hasUndo {S : Type} (h : HistoryState S) : Bool := !h.undoStack.isEmpty

/-- Modelled from the spec: HistoryManager::hasRedo. -/
def hasRedo {S : Type} (h : HistoryState S) : Bool := !h.redoStack.isEmpty

/-- Modelled from the spec: HistoryManager::pushHistory records the entry and
discards any previously available redo entries. -/
def historyPush {S : Type} (h : HistoryState S) (desc : String) (prev curr : S) :
    HistoryState S :=
  { undoStack := ⟨desc, prev, curr⟩ :: h.undoStack, redoStack := [] }

/-- Modelled from the spec: HistoryManager::undo returns the previous snapshot
of the most recent entry and moves the entry to the redo stack. -/
def historyUndo {S : Type} (h : HistoryState S) : Option (S × HistoryState S) :=
  match h.undoStack with
  | [] => none
  | e :: rest => some (e.prev, { undoStack := rest, redoStack := e :: h.redoStack })

/-- Modelled from the spec: HistoryManager::redo returns the current snapshot
of the most recently undone entry and moves it back to the undo stack. -/
def historyRedo {S : Type} (h : HistoryState S) : Option (S × HistoryState S) :=
  match h.redoStack with
  | [] => none
  | e :: rest => some (e.curr, { undoStack := e :: h.undoStack, redoStack := rest })

/-- The ScoreEditor fields the claims touch: the live chart snapshot, the next
note id allocator, the selection, the history, the up to date flag, the edit
in progress flag, the working filename, and the playing flag. -/
structure EditorState (S : Type) where
  score : S
  nextID : Int
  selection : List Int
  history : HistoryState S
  uptoDate : Bool
  hasEdit : Bool
  filename : String
  playing : Bool
deriving DecidableEq

/-- Modelled from the spec: resetNextID lives outside the provided sources;
the allocator is reset to its initial value, whose exact value the claims do
not depend on. -/
def initialNextID : Int := 1

/-- The recognized score file extensions in loadScore. -/
inductive ScoreFileExt
  | sus
  | mmws
  | other
deriving DecidableEq

/-- ScoreEditor::loadScore (ScoreEditor.cpp lines 74-120).  The import and
deserialize collaborators are abstracted by the parse argument: on success
they produce a chart and leave the allocator at some advanced value, on
failure they throw, modelled by Except.error.  The catch handler restores the
allocator backup; the C++ assignment `score = deserializeScore(filename)`
never executes when the right hand side throws, so the live chart is
untouched on failure. -/
def loadScore {S : Type} (st : EditorState S) (ext : ScoreFileExt)
    (parse : Except String (S × Int)) (filename : String) : EditorState S :=
  let st0 := if st.playing then { st with playing := false } else st
  let nextIdBackup := st0.nextID
  let st1 := { st0 with nextID := initialNextID }
  match ext with
  | .sus =>
      match parse with
      | .ok (s, nid) =>
          { st1 with score := s, nextID := nid, uptoDate := false, filename := ""
                     selection := [], history := ⟨[], []⟩, hasEdit := false }
      | .error _ => { st1 with nextID := nextIdBackup }
  | .mmws =>
      match parse with
      | .ok (s, nid) =>
          { st1 with score := s, nextID := nid, uptoDate := true, filename := filename
                     selection := [], history := ⟨[], []⟩, hasEdit := false }
      | .error _ => { st1 with nextID := nextIdBackup }
  | .other => { st1 with selection := [], history := ⟨[], []⟩, hasEdit := false }

/-- ScoreEditor::pushHistory (lines 339-348): push the checkpoint and drop up
to date. -/
def pushHistory {S : Type} (st : EditorState S) (desc : String) (prev curr : S) :
    EditorState S :=
  { st with history := historyPush st.history desc prev curr, uptoDate := false }

/-- ScoreEditor::undo (lines 350-360): when an undo entry exists, restore the
snapshot, clear the selection and drop up to date.  clearSelection lives
outside the provided sources and is modelled from the spec as emptying the
selection set. -/
def undo {S : Type} (st : EditorState S) : EditorState S :=
  match historyUndo st.history with
  | none => st
  | some (s, h) =>
      { st with score := s, history := h, selection := [], uptoDate := false }

/-- ScoreEditor::redo (lines 362-372). -/
def redo {S : Type} (st : EditorState S) : EditorState S :=
  match historyRedo st.history with
  | none => st
  | some (s, h) =>
      { st with score := s, history := h, selection := [], uptoDate := false }

/-- ScoreEditor::save (lines 135-148): with a working filename the chart is
serialized and marked up to date; otherwise saveAs runs, whose file dialog is
abstracted by its result. -/
def save {S : Type} (st : EditorState S) (dialogResult : Option String) : EditorState S :=
  if st.filename ≠ "" then { st with uptoDate := true }
  else
    match dialogResult with
    | some fn => { st with filename := fn, uptoDate := true }
    | none => st

/-- A concrete editor state over Int snapshots with an undo entry available. -/
def c7State : EditorState Int :=
  { score := 5, nextID := 3, selection := [1]
    history := { undoStack := [⟨"update notes", 4, 5⟩], redoStack := [] }
    uptoDate := true, hasEdit := false, filename := "chart.mmws", playing := false }

/-- A concrete editor state over Int snapshots for the load rollback witness. -/
def c6State : EditorState Int :=
  { score := 9, nextID := 17, selection := [2, 3]
    history := { undoStack := [⟨"insert note", 8, 9⟩], redoStack := [] }
    uptoDate := true, hasEdit := false, filename := "chart.mmws", playing := true }

/-! ## Audio transport seek: AudioManager::seekBGM lines 188-208 -/

/-- The end flag update of AudioManager::seekBGM.  The frame computation and
the seek itself belong to the external transport; the embedding takes the
computed frame, the current flag, and the result of the length query (none
when ma_sound_get_length_in_pcm_frames fails, in which case seekBGM returns
before touching the flag). -/
def seekBGMFlag (atEnd : Bool) (seekFrame : Nat) (lengthResult : Option Nat) : Bool :=
  match lengthResult with
  | none => atEnd
  | some length =>
      if length < seekFrame then true
      else if atEnd = true ∧ seekFrame < length then false
      else atEnd


/-- A note for the exactly once witness: fire instant 1 with lookahead 2,
playback starting at position 0. -/
def c2wNote : SENote := { tick := 4, noteTime := 3, se := "tap" }

def c2wInit : SEState := { songPos := 0, tickSEMap := [], fired := [] }

def c2wFrames : List SEFrame := [{ time := 1, songPos := 2 }]

/-! ## Theorems -/

/-- C1 counterexample: for the hold with start tick 10, end tick 20 and steps
at ticks 0 and 5, the repair run of noteControl swaps the start with the
first step and leaves the steps at ticks 10 and 5 out of order, so the chain
start.tick ≤ steps[0].tick ≤ steps[1].tick ≤ end.tick fails after
normalization. -/
theorem C1_counterexample : ¬ holdInvariant (normalizeHold cexHold) := by decide

/-- C4 counterexample: applying the repair run twice to the same hold with
start tick 10, end tick 20 and steps at ticks 0 and 5 re-sorts the steps that
the first application left out of order, so the second application changes
the hold again. -/
theorem C4_counterexample :
    normalizeHold (normalizeHold cexHold) ≠ normalizeHold cexHold := by decide

/-- C5 counterexample: division 384 is accepted by setDivision, its snap
interval is 480 / (384 / 4) = 5, and snapTick moves tick 2 to 4, which is not
a multiple of 5 (the nearest multiple, 0, is closer), because the round up
step adds 2 * (5 / 2) = 4 instead of the interval. -/
theorem C5_counterexample :
    setDivision 4 384 = 384 ∧ snapInterval 384 = 5 ∧ snapTick 2 384 = 4 ∧
      ¬ ((5 : Int) ∣ snapTick 2 384) := by decide

/-- C2 counterexample: a run over two frames whose position sequence
3, 1, 3 crosses the fire instant 2 of the note exactly once, yet the effect
fires twice: once through the playback start branch of the first frame
(the nominal clock equals the playback start position 3 and the note sits
inside the lookahead window), and once through the window crossing on the
second frame; the dedup table cannot stop the second firing because it is
cleared at every frame. -/
theorem C2_counterexample :
    crossCount (cexNote.noteTime - 2) cexInitSE.songPos cexFrames = 1 ∧
      (runNoteSE 2 3 [cexNote] cexInitSE cexFrames).fired.length = 2 := by
  norm_num [crossCount, runNoteSE, updateNoteSEFrame, updateNoteSENote,
    cexNote, cexFrames, cexInitSE, List.foldl]
  decide

/-- C3 counterexample: within a single playback run, the dedup entry recorded
while processing the first frame is gone after the second frame of the same
run, so the table does not persist across successive frames of one run. -/
theorem C3_counterexample :
    (runNoteSE 1 5 [c3Note] c3Init [c3Frame1]).tickSEMap = [(7, "perfect")] ∧
      (runNoteSE 1 5 [c3Note] c3Init [c3Frame1, c3Frame2]).tickSEMap = [] := by
  norm_num [runNoteSE, updateNoteSEFrame, updateNoteSENote,
    c3Note, c3Frame1, c3Frame2, c3Init, List.foldl]

/-- C3 (amended): the dedup table is cleared at the start of every playing
frame, not only on the stopped to playing transition: the table produced by a
frame does not depend on the table the previous frame left behind. -/
theorem C3_cleared_every_frame (lookAhead playStartTime : ℚ) (notes : List SENote)
    (st : SEState) (m : List (Int × String)) (f : SEFrame) :
    updateNoteSEFrame lookAhead playStartTime notes { st with tickSEMap := m } f
      = updateNoteSEFrame lookAhead playStartTime notes st f := rfl

/-- The firing log of a run over a single note grows by exactly one entry per
upward window crossing when the fire instant of the note is not before the
playback start position, since then the playback start branch can never fire
(it requires the fire instant strictly before the nominal clock at the start
position). -/
theorem runNoteSE_single_fired (la pst : ℚ) (note : SENote)
    (hpst : pst ≤ note.noteTime - la) :
    ∀ (frames : List SEFrame) (st : SEState),
      (runNoteSE la pst [note] st frames).fired.length
        = st.fired.length + crossCount (note.noteTime - la) st.songPos frames := by
  intro frames
  induction frames with
  | nil => intro st; simp [runNoteSE, crossCount]
  | cons f fs ih =>
      intro st
      have hstep : runNoteSE la pst [note] st (f :: fs)
          = runNoteSE la pst [note] (updateNoteSEFrame la pst [note] st f) fs := rfl
      rw [hstep, ih]
      by_cases hw : st.songPos ≤ note.noteTime - la ∧ note.noteTime - la < f.songPos
      · have hfr : updateNoteSEFrame la pst [note] st f
            = { songPos := f.songPos, tickSEMap := [(note.tick, note.se)]
                fired := st.fired ++ [(note.tick, note.se)] } := by
          simp [updateNoteSEFrame, updateNoteSENote, hw]
        rw [hfr]
        simp [crossCount, hw]
        omega
      · have hfr : updateNoteSEFrame la pst [note] st f
            = { songPos := f.songPos, tickSEMap := [], fired := st.fired } := by
          by_cases ht : f.time = pst
          · have hno : ¬ (pst ≤ note.noteTime ∧ note.noteTime - la < pst) := fun hcon =>
              absurd (lt_of_le_of_lt hpst hcon.2) (lt_irrefl pst)
            simp [updateNoteSEFrame, updateNoteSENote, hw, ht, hno]
          · simp [updateNoteSEFrame, updateNoteSENote, hw, ht]
        rw [hfr]
        simp [crossCount, hw]

/-- C2 (amended): for a fixed note and a playback run whose frame position
sequence crosses the lookahead adjusted fire instant of the note exactly once
upward, the effect fires exactly once regardless of how the crossing is
subdivided into frames, provided the fire instant is not before the playback
start position; when the fire instant lies strictly before the start position
the immediate fire branch of the first frame can trigger the effect a second
time, the per frame clearing of the dedup table notwithstanding. -/
theorem C2_fire_once (lookAhead playStartTime : ℚ) (note : SENote) (st : SEState)
    (frames : List SEFrame)
    (hpst : playStartTime ≤ note.noteTime - lookAhead)
    (hcross : crossCount (note.noteTime - lookAhead) st.songPos frames = 1)
    (hfired : st.fired = []) :
    (runNoteSE lookAhead playStartTime [note] st frames).fired.length = 1 := by
  rw [runNoteSE_single_fired lookAhead playStartTime note hpst frames st, hfired, hcross]
  simp

/-- C2 witness. -/
theorem C2_fire_once_witness :
    (runNoteSE 2 0 [c2wNote] c2wInit c2wFrames).fired.length = 1 :=
  C2_fire_once 2 0 c2wNote c2wInit c2wFrames (by norm_num [c2wNote])
    (by norm_num [crossCount, c2wNote, c2wInit, c2wFrames]) rfl

/-- C7 counterexample: a successful undo sets the up to date flag to false,
that is, the chart is marked modified directly after undo, contrary to the
claim that it is not marked modified after undo. -/
theorem C7_counterexample :
    hasUndo c7State.history = true ∧ (undo c7State).uptoDate = false := by decide

/-- C7 (amended): the chart is marked modified (up to date false) after every
history checkpoint, and also directly after every successful undo, every
successful redo, and every successful SUS import; it is marked unmodified
directly after a save with a working filename and after a successful MMWS
load. -/
theorem C7_modified_flag {S : Type} (st : EditorState S) (desc : String)
    (prev curr s : S) (nid : Int) (fn : String) (d : Option String) :
    (pushHistory st desc prev curr).uptoDate = false ∧
    (hasUndo st.history = true → (undo st).uptoDate = false) ∧
    (hasRedo st.history = true → (redo st).uptoDate = false) ∧
    (st.filename ≠ "" → (save st d).uptoDate = true) ∧
    (loadScore st .mmws (.ok (s, nid)) fn).uptoDate = true ∧
    (loadScore st .sus (.ok (s, nid)) fn).uptoDate = false := by
  refine ⟨rfl, ?_, ?_, ?_, ?_, ?_⟩
  · intro h
    cases hu : st.history.undoStack with
    | nil => simp [hasUndo, hu] at h
    | cons e rest => simp [undo, historyUndo, hu]
  · intro h
    cases hu : st.history.redoStack with
    | nil => simp [hasRedo, hu] at h
    | cons e rest => simp [redo, historyRedo, hu]
  · intro h
    simp [save, h]
  · cases hp : st.playing <;> simp [loadScore, hp]
  · cases hp : st.playing <;> simp [loadScore, hp]

/-- C7 witness. -/
theorem C7_modified_flag_witness :
    (undo c7State).uptoDate = false ∧ (save c7State none).uptoDate = true := by
  have h := C7_modified_flag c7State "update notes" 4 5 6 9 "other.mmws" none
  exact ⟨h.2.1 (by decide), h.2.2.2.1 (by decide)⟩

/-- C6 (confirmed): when the parse or deserialize step of a load throws, the
live chart snapshot, the next id allocator, the selection, the history and
the modified flag are all exactly as before the load attempt, for both score
file formats. -/
theorem C6_load_transactional {S : Type} (st : EditorState S) (err : String)
    (fn : String) (ext : ScoreFileExt) (hext : ext ≠ ScoreFileExt.other) :
    (loadScore st ext (.error err) fn).score = st.score ∧
    (loadScore st ext (.error err) fn).nextID = st.nextID ∧
    (loadScore st ext (.error err) fn).selection = st.selection ∧
    (loadScore st ext (.error err) fn).history = st.history ∧
    (loadScore st ext (.error err) fn).uptoDate = st.uptoDate := by
  cases ext with
  | sus => cases hp : st.playing <;> simp [loadScore, hp]
  | mmws => cases hp : st.playing <;> simp [loadScore, hp]
  | other => exact absurd rfl hext

/-- C6 witness. -/
theorem C6_load_transactional_witness :
    (loadScore c6State ScoreFileExt.mmws (.error "parse error") "broken.mmws").score
        = c6State.score ∧
      (loadScore c6State ScoreFileExt.mmws (.error "parse error") "broken.mmws").nextID
        = c6State.nextID :=
  ⟨(C6_load_transactional c6State "parse error" "broken.mmws" ScoreFileExt.mmws
      (by decide)).1,
    (C6_load_transactional c6State "parse error" "broken.mmws" ScoreFileExt.mmws
      (by decide)).2.1⟩

/-- C10 (confirmed): every successful undo and every successful redo leaves
the selection set empty, whatever was selected before. -/
theorem C10_undo_redo_clear_selection {S : Type} (st : EditorState S) :
    (hasUndo st.history = true → (undo st).selection = []) ∧
    (hasRedo st.history = true → (redo st).selection = []) := by
  constructor
  · intro h
    cases hu : st.history.undoStack with
    | nil => simp [hasUndo, hu] at h
    | cons e rest => simp [undo, historyUndo, hu]
  · intro h
    cases hu : st.history.redoStack with
    | nil => simp [hasRedo, hu] at h
    | cons e rest => simp [redo, historyRedo, hu]

/-- C10 witness. -/
theorem C10_undo_redo_clear_selection_witness : (undo c7State).selection = [] :=
  (C10_undo_redo_clear_selection c7State).1 (by decide)

/-- C8 (confirmed): on a seek with a successful length query, a target frame
strictly beyond the track length forces the at end flag true; a target frame
strictly before the length while the flag is set forces it false; any other
seek leaves the flag unchanged. -/
theorem C8_seek_flag (atEnd : Bool) (seekFrame length : Nat) :
    (length < seekFrame → seekBGMFlag atEnd seekFrame (some length) = true) ∧
    (atEnd = true → seekFrame < length →
      seekBGMFlag atEnd seekFrame (some length) = false) ∧
    (¬ length < seekFrame → ¬ (atEnd = true ∧ seekFrame < length) →
      seekBGMFlag atEnd seekFrame (some length) = atEnd) := by
  refine ⟨?_, ?_, ?_⟩
  · intro h
    simp [seekBGMFlag, h]
  · intro ha h
    have hn : ¬ length < seekFrame := by omega
    simp [seekBGMFlag, ha, h, hn]
  · intro h1 h2
    simp only [seekBGMFlag, if_neg h1, if_neg h2]

/-- C8 witness. -/
theorem C8_seek_flag_witness :
    seekBGMFlag true 10 (some 7) = true ∧ seekBGMFlag true 5 (some 7) = false ∧
      seekBGMFlag false 7 (some 7) = false := by
  refine ⟨(C8_seek_flag true 10 7).1 (by decide),
    (C8_seek_flag true 5 7).2.1 rfl (by decide), ?_⟩
  exact (C8_seek_flag false 7 7).2.2 (by decide) (by decide)


/-- For every division accepted by setDivision both divisors appearing in
snapTick and roundTickDown are at least one. -/
theorem snapInterval_pos (div : Int) (h4 : 4 ≤ div) (h1920 : div ≤ 1920) :
    1 ≤ div.tdiv 4 ∧ 1 ≤ snapInterval div := by
  have hd4 : div.tdiv 4 = div / 4 := Int.tdiv_eq_ediv (by omega) (by omega)
  have h1 : 1 ≤ div / 4 := by omega
  have h2 : div / 4 ≤ 480 := by omega
  refine ⟨by omega, ?_⟩
  unfold snapInterval TICKS_PER_BEAT
  rw [hd4]
  have h3 : (480 : Int).tdiv (div / 4) = 480 / (div / 4) :=
    Int.tdiv_eq_ediv (by omega) (by omega)
  rw [h3, Int.le_ediv_iff_mul_le (by omega : (0 : Int) < div / 4)]
  omega

/-- C5 (amended): for every nonnegative tick and every division in the
accepted range [4, 1920] whose snap interval TICKS_PER_BEAT / (division / 4)
is even or equal to one, snapTick returns the nearest multiple of the
interval, a tick exactly halfway rounding up, clamped to be nonnegative; for
an odd interval greater than one the round up step adds 2 * (interval / 2),
which is not the interval, and the result need not be a multiple.
roundTickDown returns the greatest multiple of the interval at most the tick,
clamped to be nonnegative, for every accepted division. -/
theorem C5_snap_amended (tick div : Int) (ht : 0 ≤ tick) (h4 : 4 ≤ div)
    (h1920 : div ≤ 1920) :
    (snapInterval div % 2 = 0 ∨ snapInterval div = 1 →
      snapInterval div ∣ snapTick tick div ∧ 0 ≤ snapTick tick div ∧
      (∀ m : Int, snapInterval div ∣ m →
        (tick - snapTick tick div).natAbs ≤ (tick - m).natAbs) ∧
      (2 * tick.tmod (snapInterval div) = snapInterval div →
        snapTick tick div = tick - tick.tmod (snapInterval div) + snapInterval div)) ∧
    (snapInterval div ∣ roundTickDown tick div ∧ 0 ≤ roundTickDown tick div ∧
      roundTickDown tick div ≤ tick ∧
      ∀ m : Int, snapInterval div ∣ m → m ≤ tick → m ≤ roundTickDown tick div) := by
  obtain ⟨hd4, hI1⟩ := snapInterval_pos div h4 h1920
  have hI0 : (0 : Int) < snapInterval div := by omega
  have htm : tick.tmod (snapInterval div) = tick % snapInterval div :=
    Int.tmod_eq_emod ht (by omega)
  have hhalf : (snapInterval div).tdiv 2 = snapInterval div / 2 :=
    Int.tdiv_eq_ediv (by omega) (by omega)
  have hr0 : 0 ≤ tick % snapInterval div := Int.emod_nonneg tick (by omega)
  have hrI : tick % snapInterval div < snapInterval div := Int.emod_lt_of_pos tick hI0
  have hq0 : 0 ≤ tick / snapInterval div := Int.ediv_nonneg ht (by omega)
  have hbase : tick - tick % snapInterval div
      = snapInterval div * (tick / snapInterval div) := by
    rw [Int.emod_def]; ring
  have hbnn : 0 ≤ tick - tick % snapInterval div := by
    rw [hbase]; exact mul_nonneg (by omega) hq0
  have hsnap : snapTick tick div
      = max (if tick.tmod (snapInterval div) ≥ (snapInterval div).tdiv 2 then
          tick - tick.tmod (snapInterval div) + (snapInterval div).tdiv 2 * 2
        else tick - tick.tmod (snapInterval div)) 0 := rfl
  have hround : roundTickDown tick div = max (tick - tick.tmod (snapInterval div)) 0 := rfl
  constructor
  · intro hpar
    rw [hsnap, htm, hhalf]
    by_cases hc : tick % snapInterval div ≥ snapInterval div / 2
    · rw [if_pos hc]
      rcases hpar with heven | h1I
      · have h22 : snapInterval div / 2 * 2 = snapInterval div := by omega
        rw [h22]
        have hnn : 0 ≤ tick - tick % snapInterval div + snapInterval div := by omega
        rw [max_eq_left hnn]
        refine ⟨⟨tick / snapInterval div + 1, by rw [mul_add, mul_one, ← hbase]⟩,
          by omega, ?_, by omega⟩
        intro m hm
        obtain ⟨k, hk⟩ := hm
        rcases le_or_lt k (tick / snapInterval div) with hkq | hkq
        · have h1 : snapInterval div * k ≤ snapInterval div * (tick / snapInterval div) :=
            mul_le_mul_of_nonneg_left hkq (by omega)
          rw [← hbase, ← hk] at h1
          omega
        · have h1 : snapInterval div * (tick / snapInterval div + 1) ≤ snapInterval div * k :=
            mul_le_mul_of_nonneg_left (by omega) (by omega)
          have hIq : snapInterval div * (tick / snapInterval div + 1)
              = tick - tick % snapInterval div + snapInterval div := by
            rw [mul_add, mul_one, ← hbase]
          rw [hIq, ← hk] at h1
          omega
      · have hr1 : tick % snapInterval div = 0 := by rw [h1I]; exact Int.emod_one tick
        rw [hr1, h1I]
        have hmax : max (tick - 0 + 1 / 2 * 2) 0 = tick := by omega
        rw [hmax]
        refine ⟨one_dvd tick, ht, ?_, by omega⟩
        intro m hm
        omega
    · rw [if_neg hc]
      have heven : snapInterval div % 2 = 0 := by
        rcases hpar with he | h1
        · exact he
        · exfalso
          apply hc
          rw [h1]
          omega
      rw [max_eq_left hbnn]
      refine ⟨⟨tick / snapInterval div, hbase⟩, by omega, ?_, by omega⟩
      intro m hm
      obtain ⟨k, hk⟩ := hm
      rcases le_or_lt k (tick / snapInterval div) with hkq | hkq
      · have h1 : snapInterval div * k ≤ snapInterval div * (tick / snapInterval div) :=
          mul_le_mul_of_nonneg_left hkq (by omega)
        rw [← hbase, ← hk] at h1
        omega
      · have h1 : snapInterval div * (tick / snapInterval div + 1) ≤ snapInterval div * k :=
          mul_le_mul_of_nonneg_left (by omega) (by omega)
        have hIq : snapInterval div * (tick / snapInterval div + 1)
            = tick - tick % snapInterval div + snapInterval div := by
          rw [mul_add, mul_one, ← hbase]
        rw [hIq, ← hk] at h1
        omega
  · rw [hround, htm, max_eq_left hbnn]
    refine ⟨⟨tick / snapInterval div, hbase⟩, by omega, by omega, ?_⟩
    intro m hm hmt
    obtain ⟨k, hk⟩ := hm
    rcases le_or_lt k (tick / snapInterval div) with hkq | hkq
    · have h1 : snapInterval div * k ≤ snapInterval div * (tick / snapInterval div) :=
        mul_le_mul_of_nonneg_left hkq (by omega)
      rw [← hbase, ← hk] at h1
      omega
    · have h1 : snapInterval div * (tick / snapInterval div + 1) ≤ snapInterval div * k :=
        mul_le_mul_of_nonneg_left (by omega) (by omega)
      have hIq : snapInterval div * (tick / snapInterval div + 1)
          = tick - tick % snapInterval div + snapInterval div := by
        rw [mul_add, mul_one, ← hbase]
      rw [hIq, ← hk] at h1
      omega

/-- C5 witness. -/
theorem C5_snap_amended_witness :
    snapInterval 4 ∣ snapTick 250 4 ∧ roundTickDown 250 4 ≤ 250 := by
  have h := C5_snap_amended 250 4 (by decide) (by decide) (by decide)
  exact ⟨(h.1 (by decide)).1, h.2.2.2.1⟩

/-- C9 (confirmed): setDivision keeps the division inside [4, 1920] whenever
it already was there, and for every division in that range the inner divisor
division / 4 and the snap interval TICKS_PER_BEAT / (division / 4) used by
snapTick and roundTickDown are both at least one, hence never zero, so no
division or remainder by zero occurs. -/
theorem C9_division_safe (current div : Int) (hc4 : 4 ≤ current)
    (hc1920 : current ≤ 1920) :
    (4 ≤ setDivision current div ∧ setDivision current div ≤ 1920) ∧
    ∀ d : Int, 4 ≤ d → d ≤ 1920 →
      d.tdiv 4 ≠ 0 ∧ snapInterval d ≠ 0 ∧ 1 ≤ d.tdiv 4 ∧ 1 ≤ snapInterval d := by
  constructor
  · unfold setDivision
    split
    · omega
    · omega
  · intro d hd4 hd1920
    obtain ⟨a, b⟩ := snapInterval_pos d hd4 hd1920
    exact ⟨by omega, by omega, a, b⟩

/-- C9 witness. -/
theorem C9_division_safe_witness :
    4 ≤ setDivision 8 1000 ∧ snapInterval 8 ≠ 0 := by
  have h := C9_division_safe 8 1000 (by decide) (by decide)
  exact ⟨h.1.1, (h.2 8 (by decide) (by decide)).2.1⟩


/-- The last element repair preserves the number of steps. -/
theorem swapWithLast_length (e : HNote) (l : List HNote) :
    (swapWithLast e l).2.length = l.length := by
  induction l with
  | nil => rfl
  | cons x xs ih =>
      cases xs with
      | nil =>
          simp only [swapWithLast]
          split <;> rfl
      | cons y ys => simp [swapWithLast, ih]

/-- On a sorted list the last element repair returns an end note bounding the
original end, the produced list, and every original element from above. -/
theorem swapWithLast_sorted_bounds (e : HNote) (l : List HNote)
    (hl : List.Sorted stepLE l) :
    e.tick ≤ (swapWithLast e l).1.tick ∧
    (∀ z ∈ (swapWithLast e l).2, z.tick ≤ (swapWithLast e l).1.tick) ∧
    (∀ z ∈ l, z.tick ≤ (swapWithLast e l).1.tick) := by
  induction l with
  | nil => exact ⟨le_refl _, by simp [swapWithLast], by simp⟩
  | cons x xs ih =>
      cases xs with
      | nil =>
          by_cases hx : e.tick < x.tick
          · refine ⟨?_, ?_, ?_⟩ <;> simp [swapWithLast, hx, swapTickLane] <;> omega
          · refine ⟨?_, ?_, ?_⟩ <;> simp [swapWithLast, hx, swapTickLane] <;> omega
      | cons y ys =>
          have hxy : x.tick ≤ y.tick := (List.sorted_cons.mp hl).1 y (by simp)
          obtain ⟨ihe, ihsnd, ihall⟩ := ih hl.of_cons
          have hyb : y.tick ≤ (swapWithLast e (y :: ys)).1.tick := ihall y (by simp)
          refine ⟨ihe, ?_, ?_⟩
          · intro z hz
            simp only [swapWithLast] at hz ⊢
            rcases List.mem_cons.mp hz with rfl | hz
            · exact le_trans hxy hyb
            · exact ihsnd z hz
          · intro z hz
            simp only [swapWithLast]
            rcases List.mem_cons.mp hz with rfl | hz
            · exact le_trans hxy hyb
            · exact ihall z hz

/-- The last element repair on a list whose head is below the end note and
whose tail is sorted: the end never decreases, and every produced element is
bounded by the produced end. -/
theorem swapWithLast_head_bounds (e x : HNote) (rest : List HNote)
    (hx : x.tick ≤ e.tick) (hrest : List.Sorted stepLE rest) :
    e.tick ≤ (swapWithLast e (x :: rest)).1.tick ∧
    ∀ z ∈ (swapWithLast e (x :: rest)).2, z.tick ≤ (swapWithLast e (x :: rest)).1.tick := by
  cases rest with
  | nil =>
      have hnx : ¬ e.tick < x.tick := not_lt.mpr hx
      refine ⟨?_, ?_⟩ <;> simp [swapWithLast, hnx] <;> omega
  | cons y ys =>
      obtain ⟨ihe, ihsnd, _⟩ := swapWithLast_sorted_bounds e (y :: ys) hrest
      refine ⟨ihe, ?_⟩
      intro z hz
      simp only [swapWithLast] at hz ⊢
      rcases List.mem_cons.mp hz with rfl | hz
      · exact le_trans hx ihe
      · exact ihsnd z hz

/-- The last element repair preserves every lower bound shared by the end note
and all elements. -/
theorem swapWithLast_lower (B : Int) (e : HNote) (l : List HNote)
    (he : B ≤ e.tick) (hl : ∀ z ∈ l, B ≤ z.tick) :
    B ≤ (swapWithLast e l).1.tick ∧ ∀ z ∈ (swapWithLast e l).2, B ≤ z.tick := by
  induction l with
  | nil => exact ⟨he, by simp [swapWithLast]⟩
  | cons x xs ih =>
      cases xs with
      | nil =>
          have hbx : B ≤ x.tick := hl x (by simp)
          by_cases hx : e.tick < x.tick
          · refine ⟨?_, ?_⟩ <;> simp [swapWithLast, hx, swapTickLane] <;> omega
          · refine ⟨?_, ?_⟩ <;> simp [swapWithLast, hx] <;> omega
      | cons y ys =>
          obtain ⟨ih1, ih2⟩ := ih (fun z hz => hl z (by simp [hz]))
          refine ⟨ih1, ?_⟩
          intro z hz
          simp only [swapWithLast] at hz
          rcases List.mem_cons.mp hz with rfl | hz
          · exact hl _ (List.mem_cons_self _ _)
          · exact ih2 z hz

/-- When every element is already bounded by the end note the last element
repair does nothing. -/
theorem swapWithLast_no_swap (e : HNote) (l : List HNote)
    (h : ∀ z ∈ l, z.tick ≤ e.tick) :
    swapWithLast e l = (e, l) := by
  induction l with
  | nil => rfl
  | cons x xs ih =>
      cases xs with
      | nil =>
          have hnx : ¬ e.tick < x.tick := not_lt.mpr (h x (by simp))
          simp [swapWithLast, hnx]
      | cons y ys =>
          have heq := ih (fun z hz => h z (by simp [hz]))
          simp [swapWithLast, heq]

/-- The boundary repairs preserve the number of steps. -/
theorem normalizeHoldSorted_steps_length (s e : HNote) (l : List HNote) :
    (normalizeHoldSorted s e l).steps.length = l.length := by
  cases l with
  | nil => rfl
  | cons first rest =>
      by_cases hf : first.tick < s.tick
      · simp [normalizeHoldSorted, hf, swapWithLast_length]
      · simp [normalizeHoldSorted, hf, swapWithLast_length]

/-- After the boundary repairs on a sorted step list with ordered endpoints,
the start is at most the end and every step tick lies between them. -/
theorem normalizeHoldSorted_bounds (s e : HNote) (l : List HNote)
    (hse : s.tick ≤ e.tick) (hl : List.Sorted stepLE l) :
    (normalizeHoldSorted s e l).start.tick ≤ (normalizeHoldSorted s e l).fin.tick ∧
    ∀ z ∈ (normalizeHoldSorted s e l).steps,
      (normalizeHoldSorted s e l).start.tick ≤ z.tick ∧
        z.tick ≤ (normalizeHoldSorted s e l).fin.tick := by
  cases l with
  | nil => exact ⟨hse, by simp [normalizeHoldSorted]⟩
  | cons first rest =>
      have hrest : List.Sorted stepLE rest := hl.of_cons
      have hfr : ∀ z ∈ rest, first.tick ≤ z.tick := fun z hz =>
        (List.sorted_cons.mp hl).1 z hz
      by_cases hf : first.tick < s.tick
      · simp only [normalizeHoldSorted, if_pos hf]
        have hx : ((swapTickLane s first).2).tick = s.tick := rfl
        obtain ⟨hup1, hup2⟩ := swapWithLast_head_bounds e (swapTickLane s first).2 rest
          (by rw [hx]; exact hse) hrest
        obtain ⟨hlo1, hlo2⟩ := swapWithLast_lower first.tick e
          ((swapTickLane s first).2 :: rest)
          (le_of_lt (lt_of_lt_of_le hf hse))
          (by
            intro z hz
            rcases List.mem_cons.mp hz with rfl | hz
            · rw [hx]; exact le_of_lt hf
            · exact hfr z hz)
        exact ⟨hlo1, fun z hz => ⟨hlo2 z hz, hup2 z hz⟩⟩
      · simp only [normalizeHoldSorted, if_neg hf]
        obtain ⟨hup1, hup2, _⟩ := swapWithLast_sorted_bounds e (first :: rest) hl
        obtain ⟨hlo1, hlo2⟩ := swapWithLast_lower s.tick e (first :: rest) hse
          (by
            intro z hz
            rcases List.mem_cons.mp hz with rfl | hz
            · exact not_lt.mp hf
            · exact le_trans (not_lt.mp hf) (hfr z hz))
        exact ⟨hlo1, fun z hz => ⟨hlo2 z hz, hup2 z hz⟩⟩

/-- A hold with ordered endpoints, at most one step, and all steps between
the endpoints satisfies the chain invariant. -/
theorem holdInvariant_of_short (g : Hold) (h1 : g.start.tick ≤ g.fin.tick)
    (h2 : ∀ z ∈ g.steps, g.start.tick ≤ z.tick ∧ z.tick ≤ g.fin.tick)
    (hlen : g.steps.length ≤ 1) : holdInvariant g := by
  rcases hsteps : g.steps with _ | ⟨a, _ | ⟨b, tl2⟩⟩
  · simp [holdInvariant, holdTicks, hsteps, h1]
  · have ha := h2 a (by rw [hsteps]; simp)
    simp [holdInvariant, holdTicks, hsteps]
    exact ⟨ha.1, ha.2⟩
  · rw [hsteps] at hlen
    simp at hlen

/-- C1 (amended): after the repair run of noteControl every hold satisfies
start.tick ≤ end.tick and every step tick lies inside [start.tick, end.tick];
the full chain start.tick ≤ steps[0].tick ≤ ... ≤ end.tick additionally holds
for every hold with at most one step, but for two or more steps a boundary
swap can leave the interior of the step list out of order, so the full chain
does not hold for every initial configuration. -/
theorem C1_hold_invariant_amended (h : Hold) :
    ((normalizeHold h).start.tick ≤ (normalizeHold h).fin.tick ∧
      ∀ z ∈ (normalizeHold h).steps,
        (normalizeHold h).start.tick ≤ z.tick ∧
          z.tick ≤ (normalizeHold h).fin.tick) ∧
    (h.steps.length ≤ 1 → holdInvariant (normalizeHold h)) := by
  have hse : (if h.fin.tick < h.start.tick then swapTickLane h.start h.fin
      else (h.start, h.fin)).1.tick
      ≤ (if h.fin.tick < h.start.tick then swapTickLane h.start h.fin
      else (h.start, h.fin)).2.tick := by
    split_ifs with hc
    · show h.fin.tick ≤ h.start.tick
      omega
    · show h.start.tick ≤ h.fin.tick
      omega
  have hsorted : List.Sorted stepLE (sortHoldSteps h.steps) :=
    List.sorted_insertionSort stepLE h.steps
  have hmain := normalizeHoldSorted_bounds _ _ (sortHoldSteps h.steps) hse hsorted
  refine ⟨hmain, fun hlen => holdInvariant_of_short _ hmain.1 hmain.2 ?_⟩
  have hlsort : (sortHoldSteps h.steps).length = h.steps.length :=
    List.length_insertionSort stepLE h.steps
  have hl2 : (normalizeHold h).steps.length = (sortHoldSteps h.steps).length :=
    normalizeHoldSorted_steps_length _ _ _
  omega

/-- C1 witness. -/
theorem C1_hold_invariant_amended_witness :
    (normalizeHold okHold).start.tick ≤ (normalizeHold okHold).fin.tick ∧
      holdInvariant (normalizeHold okHold) :=
  ⟨(C1_hold_invariant_amended okHold).1.1,
    (C1_hold_invariant_amended okHold).2 (by decide)⟩

/-- A hold that already satisfies the chain invariant is a fixed point of the
repair run: no swap fires and the sort leaves the steps unchanged. -/
theorem normalizeHold_eq_of_invariant (g : Hold) (hinv : holdInvariant g) :
    normalizeHold g = g := by
  have hpw : List.Pairwise (· ≤ ·) (holdTicks g) :=
    List.chain'_iff_pairwise.mp hinv
  rw [holdTicks, List.pairwise_cons] at hpw
  obtain ⟨hhead, htail⟩ := hpw
  have hse : g.start.tick ≤ g.fin.tick := hhead g.fin.tick (by simp)
  obtain ⟨hps, _, hcross⟩ := List.pairwise_append.mp htail
  have hsteps_le : ∀ z ∈ g.steps, z.tick ≤ g.fin.tick := fun z hz =>
    hcross z.tick (List.mem_map_of_mem _ hz) g.fin.tick (by simp)
  have hs_le : ∀ z ∈ g.steps, g.start.tick ≤ z.tick := fun z hz =>
    hhead z.tick (List.mem_append_left _ (List.mem_map_of_mem _ hz))
  have hsorted : List.Sorted stepLE g.steps := by
    have hmap := List.pairwise_map.mp hps
    exact hmap
  have hp1 : (if g.fin.tick < g.start.tick then swapTickLane g.start g.fin
      else (g.start, g.fin)) = (g.start, g.fin) := if_neg (not_lt.mpr hse)
  have hform : normalizeHold g
      = normalizeHoldSorted g.start g.fin (sortHoldSteps g.steps) := by
    simp only [normalizeHold, hp1]
  rw [hform, sortHoldSteps, List.Sorted.insertionSort_eq hsorted]
  cases hsteps : g.steps with
  | nil =>
      show ({ start := g.start, fin := g.fin, steps := [] } : Hold) = g
      rw [← hsteps]
  | cons first rest =>
      have hfs : ¬ first.tick < g.start.tick :=
        not_lt.mpr (hs_le first (by rw [hsteps]; simp))
      simp only [normalizeHoldSorted, if_neg hfs]
      rw [swapWithLast_no_swap g.fin (first :: rest)
        (by intro z hz; exact hsteps_le z (by rw [hsteps]; exact hz))]
      rw [← hsteps]

/-- C4 (amended): the repair run is idempotent on every hold for which one
application establishes the chain invariant, in particular on every hold with
at most one step; when the first application leaves the steps out of order
(possible with two or more steps) a second application changes the hold
again. -/
theorem C4_idempotent_amended (h : Hold) (hinv : holdInvariant (normalizeHold h)) :
    normalizeHold (normalizeHold h) = normalizeHold h :=
  normalizeHold_eq_of_invariant (normalizeHold h) hinv

/-- C4 witness. -/
theorem C4_idempotent_amended_witness :
    normalizeHold (normalizeHold okHold) = normalizeHold okHold :=
  C4_idempotent_amended okHold (by decide)

end MikuMikuWorld
